import Mathlib

/-!
Shallow embedding of `ingest/ingester.go` (package `ingest` of
openbankit/horizon) and verification of the specification's claims about it.

The file embeds the orchestrator's pure control flow.  External
collaborators (the two store queries, the ingestion session, the crash
sink, the timer) are modelled as oracles supplied through an `Env`
value, following the collaborator contracts of the spec's section 6,
since their code is not part of the given source.
-/

/-- Errors surfaced by store queries and ingestion sessions.  The
orchestrator only branches on presence of an error, never on its content,
so an opaque numeric tag suffices as carrier. -/
abbrev Err := Nat

/-- Orchestrator state: the `coreSequence` and `historySequence` fields of
`System` in ingester.go.  They are Go `int32` values, embedded as `Int`;
wraparound is applied explicitly (`wrap32`) at the arithmetic sites. -/
structure System where
  coreSequence : Int
  historySequence : Int
deriving DecidableEq, Repr

/-- Go `int32` two's-complement wraparound, applied where the source
performs `int32` arithmetic (`historySequence+1` at session construction,
`end+1` in the batching loop). -/
def wrap32 (x : Int) : Int := (x + 2147483648) % 4294967296 - 2147483648

/-- Modelled from the spec: the ingestion session (package
`ingest/session`, outside the given source) is constructed with a first
and a last ledger sequence and a `ClearExisting` flag; the store handles,
shared cache, metrics sink and ingestion version also passed by the source
do not influence any behaviour the claims observe and are elided. -/
structure SessionParams where
  firstLedger : Int
  lastLedger : Int
  clearExisting : Bool
deriving DecidableEq, Repr

/-- Parameters produced by `session.NewSession(first, last, ...)`:
`ClearExisting` starts out false and is set by the caller when wanted. -/
def newSession (first last_ : Int) : SessionParams :=
  { firstLedger := first, lastLedger := last_, clearExisting := false }

/-- Modelled from the spec: the outcome of one `session.Run()` call
together with the session's `Ingested` counter as readable afterwards. -/
structure SessionResult where
  ingested : Int
  err : Option Err
deriving DecidableEq, Repr

/-- Oracles for the external collaborators consumed during one pass of the
orchestrator.  `coreLatest` and `histLatest` are modelled from the spec:
`core.Q.LatestLedger` and `history.Q.LatestLedger` (package `db2`, outside
the given source) each produce a latest sequence number or fail; on
success the source writes the produced number into the corresponding
`System` field through the out-pointer it passed.  `runSession` gives the
behaviour of an ingestion session as a function of its parameters. -/
structure Env where
  coreLatest : Except Err Int
  histLatest : Except Err Int
  runSession : SessionParams → SessionResult

/-- `updateLedgerState` (ingester.go lines 177-192): query the core store's
latest ledger into `i.coreSequence`, returning on error, then the history
store's latest ledger into `i.historySequence`, returning on error.  The
first write has already happened when the second query runs, exactly as in
the source, where each query writes through a pointer to its field. -/
def updateLedgerState (env : Env) (i : System) : Except Err Unit × System :=
  match env.coreLatest with
  | .error e => (.error e, i)
  | .ok c =>
    let i1 : System := { i with coreSequence := c }
    match env.histLatest with
    | .error e => (.error e, i1)
    | .ok h => (.ok (), { i1 with historySequence := h })

/-- Session parameters constructed by `ReingestRange` (ingester.go lines
90-100).  The source passes `i.historySequence+1` and `i.coreSequence`
to `session.NewSession` — its `start` and `end` arguments are unused —
and then sets `ClearExisting`. -/
def reingestRangeSessionParams (i : System) (start end_ : Int) : SessionParams :=
  { newSession (wrap32 (i.historySequence + 1)) i.coreSequence with clearExisting := true }

/-- `ReingestRange` (ingester.go lines 90-103): construct the session, run
it, and return `is.Ingested` together with the error from `is.Run()`. -/
def ReingestRange (env : Env) (i : System) (start end_ : Int) : Int × Option Err :=
  let r := env.runSession (reingestRangeSessionParams i start end_)
  (r.ingested, r.err)

/-- `ReingestSingle` (ingester.go lines 106-109): delegate to
`ReingestRange(sequence, sequence)`, discarding the count. -/
def ReingestSingle (env : Env) (i : System) (sequence : Int) : Option Err :=
  (ReingestRange env i sequence sequence).2

/-- `ReingestAll` (ingester.go lines 18-24): refresh the ledger state,
returning `(0, err)` on failure, otherwise `ReingestRange(1, coreSequence)`.
The state left behind by the refresh is returned alongside. -/
def ReingestAll (env : Env) (i : System) : (Int × Option Err) × System :=
  match updateLedgerState env i with
  | (.error e, i1) => ((0, some e), i1)
  | (.ok _, i1) => (ReingestRange env i1 1 i1.coreSequence, i1)

/-- Session parameters a `ReingestAll` call hands to the session when its
refresh succeeds. -/
def reingestAllSessionParams (env : Env) (i : System) : Except Err SessionParams :=
  match updateLedgerState env i with
  | (.error e, _) => .error e
  | (.ok _, i1) => .ok (reingestRangeSessionParams i1 1 i1.coreSequence)

/-- One `(start, end)` pair handed to a flush of the inlined batching loop
of `ReingestOutdated` (ingester.go lines 48-57): the ranges the sweep
re-ingests. -/
structure LedgerRange where
  start : Int
  end_ : Int
deriving DecidableEq, Repr

/-- The inlined range-batcher of `ReingestOutdated` (ingester.go lines
59-85), extracted as the list of ranges flushed, in order.  `start = 0` is
the sentinel meaning "no run open"; the final flush after the loop (line
82) is unconditional. -/
def batchLoop : List Int → Int → Int → List LedgerRange
  | [], start, end_ => [⟨start, end_⟩]
  | seq :: rest, start, end_ =>
    if start = 0 then batchLoop rest seq seq
    else if seq = wrap32 (end_ + 1) then batchLoop rest start seq
    else ⟨start, end_⟩ :: batchLoop rest seq seq

/-- Ranges flushed for one query page of the sweep: an empty page returns
before the batching loop runs (ingester.go lines 39-41); otherwise the
loop starts from the zero-initialised `(start, end)` pair. -/
def batch (outdated : List Int) : List LedgerRange :=
  if outdated = [] then [] else batchLoop outdated 0 0

/-- Whether the integer `x` lies inside the inclusive range `r`. -/
def memRange (x : Int) (r : LedgerRange) : Prop := r.start ≤ x ∧ x ≤ r.end_

instance (x : Int) (r : LedgerRange) : Decidable (memRange x r) := by
  unfold memRange; infer_instance

/-- Direct translation of the per-page body of `ReingestOutdated`
(ingester.go lines 48-85): the `for idx := range outdated` loop threading
`(start, end)` and the accumulator `n`, with `flush` calling the driver on
the closed run, aborting on its error and otherwise adding its count, and
the unconditional final flush.  Returns the accumulator, the error, and
the list of ranges the driver was invoked on (in order). -/
def processPage (drv : LedgerRange → Int × Option Err) :
    List Int → Int → Int → Int → Int × Option Err × List LedgerRange
  | [], start, end_, n =>
    match drv ⟨start, end_⟩ with
    | (ingested, none) => (n + ingested, none, [⟨start, end_⟩])
    | (_, some e) => (n, some e, [⟨start, end_⟩])
  | seq :: rest, start, end_, n =>
    if start = 0 then processPage drv rest seq seq n
    else if seq = wrap32 (end_ + 1) then processPage drv rest start seq n
    else
      match drv ⟨start, end_⟩ with
      | (ingested, none) =>
        let t := processPage drv rest seq seq (n + ingested)
        (t.1, t.2.1, ⟨start, end_⟩ :: t.2.2)
      | (_, some e) => (n, some e, [⟨start, end_⟩])

/-- Run the driver over a list of ranges in order, accumulating counts and
aborting at the first error, as the sweep's flushes do.  The third
component records which ranges were actually invoked. -/
def runRanges (drv : LedgerRange → Int × Option Err) :
    List LedgerRange → Int → Int × Option Err × List LedgerRange
  | [], n => (n, none, [])
  | r :: rs, n =>
    match drv r with
    | (ingested, none) =>
      let t := runRanges drv rs (n + ingested)
      (t.1, t.2.1, r :: t.2.2)
    | (_, some e) => (n, some e, [r])

/-- Sum of the counts the driver reports for the given ranges. -/
def sumCounts (drv : LedgerRange → Int × Option Err) (rs : List LedgerRange) : Int :=
  (rs.map (fun r => (drv r).1)).sum

/-- Outer loop of `ReingestOutdated` (ingester.go lines 32-86).  The
successive outcomes of `q.OldestOutdatedLedgers` are supplied as a script
of pages, consumed one per iteration: a query error or an empty page ends
the sweep; a non-empty page is batched and each run is flushed through the
driver, aborting the whole sweep on the first flush error.  `none` means
the script ran out while the loop would query again.  The second component
accumulates the ranges the driver was invoked on. -/
def reingestOutdatedLoop (drv : LedgerRange → Int × Option Err) :
    List (Except Err (List Int)) → Int → Option (Int × Option Err) × List LedgerRange
  | [], _ => (none, [])
  | p :: rest, n =>
    match p with
    | .error e => (some (n, some e), [])
    | .ok outdated =>
      if outdated = [] then (some (n, none), [])
      else
        match processPage drv outdated 0 0 n with
        | (n1, none, tr) =>
          let t := reingestOutdatedLoop drv rest n1
          (t.1, tr ++ t.2)
        | (n1, some e, tr) => (some (n1, some e), tr)

/-- `ReingestOutdated` (ingester.go lines 27-87) with the driver
instantiated as the source instantiates it: `i.ReingestRange(start, end)`,
and the accumulator started at zero. -/
def ReingestOutdated (env : Env) (i : System) (pages : List (Except Err (List Int))) :
    Option (Int × Option Err) × List LedgerRange :=
  reingestOutdatedLoop (fun r => ReingestRange env i r.start r.end_) pages 0

/-- How one pass of the internal loop of `runOnce` ended. -/
inductive RunExit where
  | stateErr (e : Err)
  | caughtUp
  | sessionErr (e : Err)
  | noProgress
  | looped
deriving DecidableEq, Repr

/-- One pass of the internal loop of `runOnce` (ingester.go lines
139-173): refresh the ledger state (returning on error), return when
`historySequence >= coreSequence`, otherwise run one session over
`[historySequence+1, coreSequence]` (no `ClearExisting`), returning on its
error or on a zero ingested count, and loop otherwise.  The last component
lists the sessions run during the pass. -/
def runOnceStep (env : Env) (i : System) : System × RunExit × List SessionParams :=
  match updateLedgerState env i with
  | (.error e, i1) => (i1, .stateErr e, [])
  | (.ok _, i1) =>
    if i1.historySequence ≥ i1.coreSequence then (i1, .caughtUp, [])
    else
      let p := newSession (wrap32 (i1.historySequence + 1)) i1.coreSequence
      let r := env.runSession p
      match r.err with
      | some e => (i1, .sessionErr e, [p])
      | none => if r.ingested = 0 then (i1, .noProgress, [p]) else (i1, .looped, [p])

/-- `runOnce` (ingester.go lines 126-175), its internal loop driven by a
script of oracle environments, one consumed per pass (each pass re-queries
the stores, whose answers may have changed).  `none` means the script ran
out while the loop would go around again. -/
def runOnce : List Env → System → Option (System × RunExit × List SessionParams)
  | [], _ => none
  | env :: rest, i =>
    match runOnceStep env i with
    | (i1, .looped, tr) =>
      match runOnce rest i1 with
      | none => none
      | some (i2, ex, tr2) => some (i2, ex, tr ++ tr2)
    | (i1, ex, tr) => some (i1, ex, tr)

/-- The integers from `s` to `e` inclusive, in order. -/
def intRange (s e : Int) : List Int :=
  (List.range (e + 1 - s).toNat).map (fun k : Nat => s + (k : Int))

/-- Concatenation of the inclusive contents of a list of ranges. -/
def joinRanges (rs : List LedgerRange) : List Int :=
  rs.flatMap (fun r => intRange r.start r.end_)

/-! ## Claim theorems: entry points (C1, C2, C4, C7) -/

/-- C1 (code_bug evidence): with `historySequence = 40` and `coreSequence
= 100`, `ReingestRange(5, 7)` constructs its ingestion session over
`[41, 100]` — `historySequence+1` to `coreSequence` — and not over the
caller-supplied `[5, 7]`; the overwrite flag is set as claimed. -/
theorem c1_reingestRange_ignores_arguments :
    reingestRangeSessionParams ⟨100, 40⟩ 5 7 =
      { firstLedger := 41, lastLedger := 100, clearExisting := true } ∧
    (reingestRangeSessionParams ⟨100, 40⟩ 5 7).firstLedger ≠ 5 ∧
    (reingestRangeSessionParams ⟨100, 40⟩ 5 7).lastLedger ≠ 7 := by
  refine ⟨by decide, by decide, by decide⟩

/-- C2 (amended): `updateLedgerState` returns the first failing query's
error.  When the core query fails, both fields are unchanged; when the
core query succeeds and the history query fails, the error is returned
with `coreSequence` already overwritten by the fresh value and
`historySequence` unchanged; on double success both fields are
overwritten.  In either failure case the `runOnce` pass attempts no
ingestion (its session trace is empty). -/
theorem c2_updateLedgerState_behaviour (env : Env) (i : System) :
    (∀ e, env.coreLatest = .error e →
      updateLedgerState env i = (.error e, i) ∧
      runOnceStep env i = (i, .stateErr e, [])) ∧
    (∀ c e, env.coreLatest = .ok c → env.histLatest = .error e →
      updateLedgerState env i = (.error e, { i with coreSequence := c }) ∧
      runOnceStep env i = ({ i with coreSequence := c }, .stateErr e, [])) ∧
    (∀ c h, env.coreLatest = .ok c → env.histLatest = .ok h →
      updateLedgerState env i = (.ok (), ⟨c, h⟩)) := by
  refine ⟨?_, ?_, ?_⟩ <;> intros <;>
    simp_all [updateLedgerState, runOnceStep]

/-- Environment in which the core-store query yields 7 and the
history-store query fails with error tag 1. -/
def envC2 : Env :=
  { coreLatest := .ok 7, histLatest := .error 1,
    runSession := fun _ => { ingested := 0, err := none } }

/-- C2 counterexample: starting from `coreSequence = 3, historySequence =
2`, a refresh whose history query fails leaves `coreSequence = 7` — the
field did not retain its prior value even though a query failed. -/
theorem c2_counterexample :
    (updateLedgerState envC2 ⟨3, 2⟩).1 = .error 1 ∧
    (updateLedgerState envC2 ⟨3, 2⟩).2 = ⟨7, 2⟩ ∧
    (updateLedgerState envC2 ⟨3, 2⟩).2.coreSequence ≠ (3 : Int) := by
  refine ⟨rfl, rfl, by decide⟩

/-- C2 witness: the amended behaviour evaluated in `envC2`. -/
theorem c2_witness :
    updateLedgerState envC2 ⟨3, 2⟩ = (.error 1, ⟨7, 2⟩) ∧
    runOnceStep envC2 ⟨3, 2⟩ = (⟨7, 2⟩, .stateErr 1, []) :=
  (c2_updateLedgerState_behaviour envC2 ⟨3, 2⟩).2.1 7 1 rfl rfl

/-- Environment in which the refresh observes core sequence 100 and
history sequence 40, with a session stub that ingests its whole range. -/
def envC4 : Env :=
  { coreLatest := .ok 100, histLatest := .ok 40,
    runSession := fun p => { ingested := p.lastLedger - p.firstLedger + 1, err := none } }

/-- C4 (code_bug evidence): after a successful refresh observing
`coreSequence = 100` and `historySequence = 40`, `ReingestAll` hands its
session the range `[41, 100]`, not the claimed `[1, 100]`; the session
stub accordingly reports 60 ingested ledgers, not 100. -/
theorem c4_reingestAll_wrong_range :
    reingestAllSessionParams envC4 ⟨0, 0⟩ =
      .ok { firstLedger := 41, lastLedger := 100, clearExisting := true } ∧
    (ReingestAll envC4 ⟨0, 0⟩).1 = (60, none) ∧
    (ReingestAll envC4 ⟨0, 0⟩).1.1 ≠ 100 := by
  refine ⟨rfl, rfl, by decide⟩

/-- C7: `ReingestSingle(seq)` is `ReingestRange(seq, seq)` — the identical
arguments are forwarded, the same session is run, the same error is
returned, and the count is the only thing discarded. -/
theorem c7_reingestSingle_equiv (env : Env) (i : System) (sequence : Int) :
    ReingestSingle env i sequence = (ReingestRange env i sequence sequence).2 ∧
    ReingestRange env i sequence sequence =
      ((env.runSession (reingestRangeSessionParams i sequence sequence)).ingested,
       (env.runSession (reingestRangeSessionParams i sequence sequence)).err) :=
  ⟨rfl, rfl⟩

/-! ## Helper lemmas about the sweep's flush loop -/

/-- Interleaving flushes with batching is the same as batching first and
then driving each flushed range in order: the per-page loop of
`ReingestOutdated` equals `runRanges` over `batchLoop`'s output. -/
theorem processPage_eq_runRanges (drv : LedgerRange → Int × Option Err) :
    ∀ (l : List Int) (s e n : Int),
      processPage drv l s e n = runRanges drv (batchLoop l s e) n := by
  intro l
  induction l with
  | nil =>
    intro s e n
    rcases h : drv ⟨s, e⟩ with ⟨ing, err⟩
    cases err <;> simp [processPage, batchLoop, runRanges, h]
  | cons seq rest ih =>
    intro s e n
    by_cases hs : s = 0
    · simp [processPage, batchLoop, hs, ih]
    · by_cases hseq : seq = wrap32 (e + 1)
      · simp [processPage, batchLoop, hs, hseq, ih]
      · rcases h : drv ⟨s, e⟩ with ⟨ing, err⟩
        cases err <;> simp [processPage, batchLoop, runRanges, hs, hseq, h, ih]

/-- Cons formula for `sumCounts`. -/
theorem sumCounts_cons (drv : LedgerRange → Int × Option Err)
    (r : LedgerRange) (rs : List LedgerRange) :
    sumCounts drv (r :: rs) = (drv r).1 + sumCounts drv rs := by
  simp [sumCounts]

/-- When the driver succeeds on every range of the list, `runRanges`
invokes all of them in order and adds all their counts. -/
theorem runRanges_all_ok (drv : LedgerRange → Int × Option Err) :
    ∀ (rs : List LedgerRange) (n : Int), (∀ r ∈ rs, (drv r).2 = none) →
      runRanges drv rs n = (n + sumCounts drv rs, none, rs) := by
  intro rs
  induction rs with
  | nil => intro n _; simp [runRanges, sumCounts]
  | cons r rs ih =>
    intro n h
    rcases hr : drv r with ⟨ing, err⟩
    have herr : err = none := by
      have := h r (by simp)
      rw [hr] at this; exact this
    subst herr
    have hrest : ∀ r' ∈ rs, (drv r').2 = none := fun r' hr' => h r' (by simp [hr'])
    simp [runRanges, hr, ih _ hrest, sumCounts_cons, hr, add_assoc]

/-- When the driver succeeds on every range before `r` and fails on `r`,
`runRanges` stops there: it returns the counts accumulated from the
successful prefix, the error from `r`, and invokes no range after `r`. -/
theorem runRanges_first_err (drv : LedgerRange → Int × Option Err) :
    ∀ (rs1 : List LedgerRange) (r : LedgerRange) (rs2 : List LedgerRange)
      (n ing : Int) (e : Err),
      (∀ r' ∈ rs1, (drv r').2 = none) → drv r = (ing, some e) →
      runRanges drv (rs1 ++ r :: rs2) n = (n + sumCounts drv rs1, some e, rs1 ++ [r]) := by
  intro rs1
  induction rs1 with
  | nil =>
    intro r rs2 n ing e _ hr
    simp [runRanges, hr, sumCounts]
  | cons r1 rs1 ih =>
    intro r rs2 n ing e h1 hr
    rcases hr1 : drv r1 with ⟨ing1, err1⟩
    have herr : err1 = none := by
      have := h1 r1 (by simp)
      rw [hr1] at this; exact this
    subst herr
    have hrest : ∀ r' ∈ rs1, (drv r').2 = none := fun r' hr' => h1 r' (by simp [hr'])
    simp [runRanges, hr1, ih r rs2 _ ing e hrest hr, sumCounts_cons, hr1, add_assoc]

/-- The sweep finishes without error only by way of an empty query page. -/
theorem reingestOutdatedLoop_ok_has_empty (drv : LedgerRange → Int × Option Err) :
    ∀ (ps : List (Except Err (List Int))) (n t : Int) (tr : List LedgerRange),
      reingestOutdatedLoop drv ps n = (some (t, none), tr) → Except.ok [] ∈ ps := by
  intro ps
  induction ps with
  | nil => intro n t tr h; simp [reingestOutdatedLoop] at h
  | cons p ps ih =>
    intro n t tr h
    match p with
    | .error e => simp [reingestOutdatedLoop] at h
    | .ok outdated =>
      by_cases hout : outdated = []
      · subst hout; simp
      · rw [reingestOutdatedLoop, if_neg hout] at h
        rcases hp : processPage drv outdated 0 0 n with ⟨n1, err1, tr1⟩
        rw [hp] at h
        match err1 with
        | none =>
          simp only at h
          rcases hq : reingestOutdatedLoop drv ps n1 with ⟨res, tr2⟩
          rw [hq] at h
          simp only [Prod.mk.injEq] at h
          exact List.mem_cons_of_mem _ (ih n1 t tr2 (by rw [hq, h.1]))
        | some e => simp only [Prod.mk.injEq] at h; cases h.1

/-! ## Claim theorems: the outdated-ledger sweep (C5, C9) -/

/-- C5: in the sweep, a query error ends the whole sweep with the current
total and that error; an empty query page ends the sweep successfully with
the accumulated total; a non-empty page on which every batched range
succeeds adds all their counts and loops back to a further query, the
driver having been invoked exactly on the batched ranges in order; a page
whose batched ranges fail first at `r` aborts the entire sweep at once,
returning the error together with the counts accumulated from the
successful prefix, the driver having been invoked on no range after `r`;
and the sweep returns without error only by way of an empty query page. -/
theorem c5_reingestOutdated_error_flow (drv : LedgerRange → Int × Option Err)
    (ps : List (Except Err (List Int))) (n : Int) :
    (∀ e, reingestOutdatedLoop drv (.error e :: ps) n = (some (n, some e), [])) ∧
    (reingestOutdatedLoop drv (.ok [] :: ps) n = (some (n, none), [])) ∧
    (∀ l, l ≠ [] → (∀ r ∈ batch l, (drv r).2 = none) →
      reingestOutdatedLoop drv (.ok l :: ps) n =
        ((reingestOutdatedLoop drv ps (n + sumCounts drv (batch l))).1,
         batch l ++ (reingestOutdatedLoop drv ps (n + sumCounts drv (batch l))).2)) ∧
    (∀ l rs1 r rs2 ing e, l ≠ [] → batch l = rs1 ++ r :: rs2 →
      (∀ r' ∈ rs1, (drv r').2 = none) → drv r = (ing, some e) →
      reingestOutdatedLoop drv (.ok l :: ps) n =
        (some (n + sumCounts drv rs1, some e), rs1 ++ [r])) ∧
    (∀ t tr, reingestOutdatedLoop drv ps n = (some (t, none), tr) → Except.ok [] ∈ ps) := by
  refine ⟨fun e => rfl, by simp [reingestOutdatedLoop], ?_, ?_, ?_⟩
  · intro l hl hok
    rw [reingestOutdatedLoop, if_neg hl, processPage_eq_runRanges]
    have hb : batchLoop l 0 0 = batch l := by rw [batch, if_neg hl]
    rw [hb, runRanges_all_ok drv (batch l) n hok]
  · intro l rs1 r rs2 ing e hl hsplit h1 hr
    rw [reingestOutdatedLoop, if_neg hl, processPage_eq_runRanges]
    have hb : batchLoop l 0 0 = batch l := by rw [batch, if_neg hl]
    rw [hb, hsplit, runRanges_first_err drv rs1 r rs2 n ing e h1 hr]
  · exact fun t tr h => reingestOutdatedLoop_ok_has_empty drv ps n t tr h

/-- Sweep driver stub for the C5 witness: fails with error tag 5 on the
range starting at 7, otherwise ingests the whole range. -/
def drvC5 : LedgerRange → Int × Option Err := fun r =>
  if r.start = 7 then (0, some 5) else (r.end_ - r.start + 1, none)

/-- C5 witness: one page `[1,2,3,7,8,10]` batches to `{1,3}, {7,8},
{10,10}`; the driver succeeds on `{1,3}` (3 ledgers) and fails on `{7,8}`,
so the sweep aborts with total 3, error 5, and never invokes `{10,10}`. -/
theorem c5_witness :
    reingestOutdatedLoop drvC5 [.ok [1, 2, 3, 7, 8, 10]] 0 =
      (some (3, some 5), [⟨1, 3⟩, ⟨7, 8⟩]) := by
  have h := (c5_reingestOutdated_error_flow drvC5 [] 0).2.2.2.1
    [1, 2, 3, 7, 8, 10] [⟨1, 3⟩] ⟨7, 8⟩ [⟨10, 10⟩] 0 5
    (by decide) (by decide) (by decide) (by decide)
  exact h

/-- C9: `ReingestRange` returns the session's `Ingested` counter read
after `Run()` returned, whatever the error is (partial progress is not
zeroed); the sweep's flush loop discards the failing range's count — at
the failing range the accumulator is returned as it was — so the sweep's
total contains exactly the counts of the ranges that completed without
error. -/
theorem c9_error_keeps_partial_count (env : Env) (i : System) (s e : Int)
    (drv : LedgerRange → Int × Option Err) :
    (ReingestRange env i s e).1 =
      (env.runSession (reingestRangeSessionParams i s e)).ingested ∧
    (∀ r rs n ing er, drv r = (ing, some er) →
      runRanges drv (r :: rs) n = (n, some er, [r])) ∧
    (∀ rs1 r rs2 n ing er, (∀ r' ∈ rs1, (drv r').2 = none) →
      drv r = (ing, some er) →
      (runRanges drv (rs1 ++ r :: rs2) n).1 = n + sumCounts drv rs1) := by
  refine ⟨rfl, ?_, ?_⟩
  · intro r rs n ing er hr
    simp [runRanges, hr]
  · intro rs1 r rs2 n ing er h1 hr
    rw [runRanges_first_err drv rs1 r rs2 n ing er h1 hr]

/-- Environment for the C9 witness: its session reports 4 ledgers ingested
and then an error. -/
def envC9 : Env :=
  { coreLatest := .ok 9, histLatest := .ok 2,
    runSession := fun _ => { ingested := 4, err := some 3 } }

/-- Driver stub for the C9 witness: fails with 2 ledgers already counted
on the range starting at 6, otherwise ingests the whole range. -/
def drvC9 : LedgerRange → Int × Option Err := fun r =>
  if r.start = 6 then (2, some 3) else (r.end_ - r.start + 1, none)

/-- C9 witness: a failing session still yields its count 4 through
`ReingestRange`, and the flush loop returns the accumulator without the
failing range's 2: only the 3 ledgers of the completed range `{1,3}`
count. -/
theorem c9_witness :
    (ReingestRange envC9 ⟨9, 2⟩ 1 9).1 = 4 ∧
    runRanges drvC9 [⟨6, 7⟩] 10 = (10, some 3, [⟨6, 7⟩]) ∧
    (runRanges drvC9 [⟨1, 3⟩, ⟨6, 7⟩, ⟨9, 9⟩] 0).1 = 3 := by
  have h := c9_error_keeps_partial_count envC9 ⟨9, 2⟩ 1 9 drvC9
  refine ⟨h.1, h.2.1 ⟨6, 7⟩ [] 10 2 3 (by decide), ?_⟩
  have h3 := h.2.2 [⟨1, 3⟩] ⟨6, 7⟩ [⟨9, 9⟩] 0 2 3 (by decide) (by decide)
  exact h3

/-! ## Claim theorems: the poller iteration (C6) -/

/-- Environment for the C6 scenario: the core store is at 100, the history
store at 40, and the session ingests its whole requested range. -/
def envC6a : Env :=
  { coreLatest := .ok 100, histLatest := .ok 40,
    runSession := fun p => { ingested := p.lastLedger - p.firstLedger + 1, err := none } }

/-- Environment for the C6 scenario after catching up: both stores are at
100. -/
def envC6b : Env :=
  { coreLatest := .ok 100, histLatest := .ok 100,
    runSession := fun p => { ingested := p.lastLedger - p.firstLedger + 1, err := none } }

/-- C6: after a successful refresh observing core sequence `c` and history
sequence `h`, a poller pass returns without running any session when
`h >= c`; otherwise it runs exactly one session over `[h+1, c]`, returns
on a session error, returns on a zero ingested count, and loops back to a
fresh refresh exactly when the count is positive.  Consequently, with core
at 100 and history at 40 and a session stub ingesting everything
requested, one `runOnce` iteration runs one session over `[41, 100]` and
ends caught up with `historySequence = 100`, and an immediately following
iteration runs no session and returns. -/
theorem c6_runOnce_poller (env : Env) (i : System) (c h : Int)
    (hc : env.coreLatest = .ok c) (hh : env.histLatest = .ok h) :
    (h ≥ c → runOnceStep env i = (⟨c, h⟩, .caughtUp, [])) ∧
    (h < c →
      (runOnceStep env i).2.2 = [newSession (wrap32 (h + 1)) c] ∧
      (∀ e, (env.runSession (newSession (wrap32 (h + 1)) c)).err = some e →
        runOnceStep env i = (⟨c, h⟩, .sessionErr e, [newSession (wrap32 (h + 1)) c])) ∧
      ((env.runSession (newSession (wrap32 (h + 1)) c)).err = none →
        ((env.runSession (newSession (wrap32 (h + 1)) c)).ingested = 0 →
          runOnceStep env i = (⟨c, h⟩, .noProgress, [newSession (wrap32 (h + 1)) c])) ∧
        (0 ≤ (env.runSession (newSession (wrap32 (h + 1)) c)).ingested →
          ((runOnceStep env i).2.1 = .looped ↔
            0 < (env.runSession (newSession (wrap32 (h + 1)) c)).ingested)))) ∧
    (runOnce [envC6a, envC6b] ⟨0, 0⟩ =
      some (⟨100, 100⟩, .caughtUp, [newSession 41 100]) ∧
     runOnce [envC6b] ⟨100, 100⟩ = some (⟨100, 100⟩, .caughtUp, [])) := by
  have hupd : updateLedgerState env i = (.ok (), ⟨c, h⟩) := by
    simp [updateLedgerState, hc, hh]
  refine ⟨?_, ?_, by decide, by decide⟩
  · intro hge
    simp [runOnceStep, hupd, hge]
  · intro hlt
    have hge : ¬ ((h : Int) ≥ c) := not_le.mpr hlt
    rcases hr : (env.runSession (newSession (wrap32 (h + 1)) c)).err with _ | e
    · by_cases hing : (env.runSession (newSession (wrap32 (h + 1)) c)).ingested = 0
      · refine ⟨by simp [runOnceStep, hupd, hge, hr, hing], ?_, ?_⟩
        · intro e he; cases he
        · intro _
          refine ⟨fun _ => by simp [runOnceStep, hupd, hge, hr, hing], fun _ => ?_⟩
          have hnp : (runOnceStep env i).2.1 = RunExit.noProgress := by
            simp [runOnceStep, hupd, hge, hr, hing]
          constructor
          · intro hl
            rw [hnp] at hl
            exact absurd hl (by decide)
          · intro hpos
            exact absurd hpos (by omega)
      · refine ⟨by simp [runOnceStep, hupd, hge, hr, hing], ?_, ?_⟩
        · intro e he; cases he
        · intro _
          refine ⟨fun h0 => absurd h0 hing, fun hnn => ?_⟩
          have hlp : (runOnceStep env i).2.1 = RunExit.looped := by
            simp [runOnceStep, hupd, hge, hr, hing]
          constructor
          · intro _; omega
          · intro _; exact hlp
    · refine ⟨by simp [runOnceStep, hupd, hge, hr], ?_, ?_⟩
      · intro e' he'
        cases he'
        simp [runOnceStep, hupd, hge, hr]
      · intro hnone; cases hnone

/-- C6 witness: the concrete two-tick scenario of the claim, obtained from
the theorem at `envC6a`. -/
theorem c6_witness :
    runOnce [envC6a, envC6b] ⟨0, 0⟩ =
      some (⟨100, 100⟩, .caughtUp, [newSession 41 100]) ∧
    runOnce [envC6b] ⟨100, 100⟩ = some (⟨100, 100⟩, .caughtUp, []) :=
  (c6_runOnce_poller envC6a ⟨0, 0⟩ 100 40 rfl rfl).2.2

/-! ## Helper lemmas about integer ranges and emitted runs -/

/-- Membership in `intRange` is the pair of inclusive bounds. -/
theorem mem_intRange {x s e : Int} : x ∈ intRange s e ↔ s ≤ x ∧ x ≤ e := by
  rw [intRange]
  constructor
  · intro hx
    rcases List.mem_map.1 hx with ⟨k, hk, rfl⟩
    rw [List.mem_range] at hk
    omega
  · intro h
    refine List.mem_map.2 ⟨(x - s).toNat, ?_, ?_⟩
    · rw [List.mem_range]; omega
    · omega

/-- A one-element range contains exactly its endpoint. -/
theorem intRange_single (s : Int) : intRange s s = [s] := by
  rw [intRange]
  have h1 : (s + 1 - s).toNat = 1 := by omega
  rw [h1, List.range_succ, List.range_zero]
  simp

/-- Extending an inclusive range by one on the right appends one value. -/
theorem intRange_append_last (s e : Int) (h : s ≤ e + 1) :
    intRange s (e + 1) = intRange s e ++ [e + 1] := by
  rw [intRange, intRange]
  have hn : (e + 1 + 1 - s).toNat = (e + 1 - s).toNat + 1 := by omega
  rw [hn, List.range_succ, List.map_append]
  congr 1
  simp only [List.map_cons, List.map_nil, List.cons.injEq, and_true]
  omega

/-- Unfolding `joinRanges` over a cons. -/
theorem joinRanges_cons (r : LedgerRange) (rs : List LedgerRange) :
    joinRanges (r :: rs) = intRange r.start r.end_ ++ joinRanges rs := by
  rw [joinRanges, joinRanges, List.flatMap_cons]

/-- A value lies in the joined contents iff some range contains it. -/
theorem mem_joinRanges {rs : List LedgerRange} {x : Int} :
    x ∈ joinRanges rs ↔ ∃ r ∈ rs, memRange x r := by
  rw [joinRanges, List.mem_flatMap]
  constructor
  · rintro ⟨r, hr, hx⟩
    exact ⟨r, hr, mem_intRange.1 hx⟩
  · rintro ⟨r, hr, hx⟩
    exact ⟨r, hr, mem_intRange.2 hx⟩

/-- A chain of gapped, well-formed ranges is pairwise gapped. -/
theorem gap_pairwise : ∀ (rs : List LedgerRange),
    (∀ r ∈ rs, r.start ≤ r.end_) →
    List.Chain' (fun a b => a.end_ + 1 < b.start) rs →
    List.Pairwise (fun a b => a.end_ + 1 < b.start) rs := by
  intro rs
  induction rs with
  | nil => intro _ _; exact List.Pairwise.nil
  | cons r rs ih =>
    intro hb hc
    rcases List.chain'_cons'.1 hc with ⟨hhead, htail⟩
    have hp := ih (fun r' h' => hb r' (by simp [h'])) htail
    refine List.pairwise_cons.2 ⟨?_, hp⟩
    intro b hb'
    match rs, hhead, htail, hp, hb' with
    | r1 :: rs', hhead, htail, hp, hb' =>
      rcases List.mem_cons.1 hb' with rfl | hb''
      · exact hhead b rfl
      · have h1 : r1.end_ + 1 < b.start := (List.pairwise_cons.1 hp).1 b hb''
        have h2 : r.end_ + 1 < r1.start := hhead r1 rfl
        have h3 : r1.start ≤ r1.end_ := hb r1 (by simp)
        omega

/-- In a gapped list of ranges, two consecutive integers of the joined
contents always fall inside one and the same range. -/
theorem runs_no_split : ∀ (rs : List LedgerRange) (x : Int),
    (∀ r ∈ rs, r.start ≤ r.end_) →
    List.Chain' (fun a b => a.end_ + 1 < b.start) rs →
    x ∈ joinRanges rs → x + 1 ∈ joinRanges rs →
    ∃ r ∈ rs, r.start ≤ x ∧ x + 1 ≤ r.end_ := by
  intro rs
  induction rs with
  | nil => intro x _ _ hx _; rw [joinRanges] at hx; simp at hx
  | cons r rs ih =>
    intro x hb hc hx hx1
    have hgap : ∀ b ∈ rs, r.end_ + 1 < b.start :=
      (List.pairwise_cons.1 (gap_pairwise (r :: rs) hb hc)).1
    rw [joinRanges_cons, List.mem_append] at hx hx1
    rcases hx with hx | hx
    · rcases hx1 with hx1 | hx1
      · rcases mem_intRange.1 hx with ⟨ha, _⟩
        rcases mem_intRange.1 hx1 with ⟨_, hb1⟩
        exact ⟨r, by simp, ha, hb1⟩
      · exfalso
        rcases mem_joinRanges.1 hx1 with ⟨r', hr', hm'⟩
        have := hgap r' hr'
        rcases mem_intRange.1 hx with ⟨_, hxe⟩
        rcases hm' with ⟨hs', _⟩
        omega
    · rcases hx1 with hx1 | hx1
      · exfalso
        rcases mem_joinRanges.1 hx with ⟨r', hr', hm'⟩
        have := hgap r' hr'
        rcases mem_intRange.1 hx1 with ⟨_, hxe⟩
        rcases hm' with ⟨hs', _⟩
        omega
      · have hjr : x ∈ joinRanges rs := hx
        have hjr1 : x + 1 ∈ joinRanges rs := hx1
        rcases ih x (fun r' h' => hb r' (by simp [h'])) hc.tail hjr hjr1 with ⟨r', hr', h1, h2⟩
        exact ⟨r', by simp [hr'], h1, h2⟩

/-- Invariant of the batching loop with a run `(s, e)` open, consuming a
strictly ascending remainder all above `e` and inside the positive int32
range: the flushed ranges spell out exactly the open run followed by the
remainder, are well formed, consecutive flushes are separated by a gap of
at least two, and the first flush starts at `s`. -/
theorem batchLoop_spec : ∀ (l : List Int) (s e : Int),
    1 ≤ s → s ≤ e → e < 2147483648 →
    List.Chain' (· < ·) l → (∀ x ∈ l, e < x ∧ x < 2147483648) →
    joinRanges (batchLoop l s e) = intRange s e ++ l ∧
    (∀ r ∈ batchLoop l s e, 1 ≤ r.start ∧ r.start ≤ r.end_) ∧
    List.Chain' (fun a b => a.end_ + 1 < b.start) (batchLoop l s e) ∧
    (batchLoop l s e).head?.map LedgerRange.start = some s := by
  intro l
  induction l with
  | nil =>
    intro s e h1 h2 _ _ _
    refine ⟨?_, ?_, ?_, ?_⟩
    · rw [batchLoop, joinRanges, List.flatMap_cons]
      simp [joinRanges]
    · intro r hr
      rw [batchLoop] at hr
      rcases List.mem_singleton.1 hr with rfl
      exact ⟨h1, h2⟩
    · rw [batchLoop]; exact List.chain'_singleton _
    · rw [batchLoop]; rfl
  | cons seq rest ih =>
    intro s e h1 h2 h3 hchain hmem
    have hs0 : s ≠ 0 := by omega
    have hseqb := hmem seq (by simp)
    have hsorted : ∀ x ∈ rest, seq < x :=
      fun x hx => (List.pairwise_cons.1 (List.chain'_iff_pairwise.1 hchain)).1 x hx
    have hmem' : ∀ x ∈ rest, seq < x ∧ x < 2147483648 :=
      fun x hx => ⟨hsorted x hx, (hmem x (by simp [hx])).2⟩
    have hwrap : wrap32 (e + 1) = e + 1 := by
      rw [wrap32]; omega
    by_cases hext : seq = wrap32 (e + 1)
    · have hseq : seq = e + 1 := by rw [hext, hwrap]
      have hb : batchLoop (seq :: rest) s e = batchLoop rest s seq := by
        rw [batchLoop, if_neg hs0, if_pos hext]
      rcases ih s seq h1 (by omega) hseqb.2 hchain.tail hmem' with ⟨ihA, ihB, ihC, ihD⟩
      refine ⟨?_, ?_, ?_, ?_⟩
      · rw [hb, ihA, hseq, intRange_append_last s e (by omega)]
        simp
      · intro r hr; rw [hb] at hr; exact ihB r hr
      · rw [hb]; exact ihC
      · rw [hb]; exact ihD
    · have hgt : e + 1 < seq := by
        have hne : seq ≠ e + 1 := by rw [hwrap] at hext; exact hext
        have := hseqb.1
        omega
      have hb : batchLoop (seq :: rest) s e = ⟨s, e⟩ :: batchLoop rest seq seq := by
        rw [batchLoop, if_neg hs0, if_neg hext]
      rcases ih seq seq (by omega) le_rfl hseqb.2 hchain.tail hmem' with ⟨ihA, ihB, ihC, ihD⟩
      refine ⟨?_, ?_, ?_, ?_⟩
      · rw [hb, joinRanges_cons, ihA, intRange_single]
        simp
      · intro r hr
        rw [hb] at hr
        rcases List.mem_cons.1 hr with rfl | hr'
        · exact ⟨h1, h2⟩
        · exact ihB r hr'
      · rw [hb]
        refine List.chain'_cons'.2 ⟨?_, ihC⟩
        intro y hy
        have hys : y.start = seq := by
          have hd := ihD
          cases hh : (batchLoop rest seq seq).head? with
          | none => rw [hh] at hy; cases hy
          | some y0 =>
            rw [hh] at hy hd
            simp at hy hd
            subst hy
            exact hd
        rw [hys]
        exact hgt
      · rw [hb]; rfl

/-! ## Claim theorems: the batching step (C3, C10) -/

/-- C3: for every strictly ascending (hence duplicate-free) list of
positive int32 sequence numbers, the batching step emits exactly the
maximal contiguous runs of the input: the joined contents of the emitted
ranges are the input itself; every range satisfies `1 <= start <= end`;
the ranges are pairwise non-overlapping and emitted in ascending order of
`start`; a value lies in some emitted range exactly when it is an input
value (so no range merges in a value the input lacks, in particular none
two input values differing by more than 1 with a gap value between them);
two consecutive input values always share one range (no maximal run is
split); and the three concrete examples hold. -/
theorem c3_batch_maximal_runs (l : List Int)
    (hchain : List.Chain' (· < ·) l)
    (hpos : ∀ x ∈ l, 1 ≤ x ∧ x < 2147483648) :
    joinRanges (batch l) = l ∧
    (∀ r ∈ batch l, 1 ≤ r.start ∧ r.start ≤ r.end_) ∧
    List.Pairwise (fun a b => a.end_ < b.start) (batch l) ∧
    List.Pairwise (fun a b => a.start < b.start) (batch l) ∧
    (∀ x : Int, (∃ r ∈ batch l, memRange x r) ↔ x ∈ l) ∧
    (∀ r ∈ batch l, ∀ x : Int, memRange x r → x ∈ l) ∧
    (∀ x : Int, x ∈ l → x + 1 ∈ l → ∃ r ∈ batch l, r.start ≤ x ∧ x + 1 ≤ r.end_) ∧
    (batch [] = [] ∧ batch [5] = [⟨5, 5⟩] ∧
      batch [1, 2, 3, 7, 8, 10] = [⟨1, 3⟩, ⟨7, 8⟩, ⟨10, 10⟩]) := by
  have hexamples : batch [] = [] ∧ batch [(5 : Int)] = [⟨5, 5⟩] ∧
      batch [1, 2, 3, 7, 8, 10] = [⟨1, 3⟩, ⟨7, 8⟩, ⟨10, 10⟩] := by
    refine ⟨by decide, by decide, by decide⟩
  cases l with
  | nil =>
    refine ⟨by decide, ?_, ?_, ?_, ?_, ?_, ?_, hexamples⟩
    · intro r hr; rw [batch] at hr; simp at hr
    · rw [batch]; simp
    · rw [batch]; simp
    · intro x
      constructor
      · rintro ⟨r, hr, _⟩; rw [batch] at hr; simp at hr
      · intro hx; cases hx
    · intro r hr; rw [batch] at hr; simp at hr
    · intro x hx; cases hx
  | cons h t =>
    have hb : batch (h :: t) = batchLoop t h h := by
      rw [batch, if_neg (by simp), batchLoop, if_pos rfl]
    have hh := hpos h (by simp)
    have hsorted : ∀ x ∈ t, h < x :=
      fun x hx => (List.pairwise_cons.1 (List.chain'_iff_pairwise.1 hchain)).1 x hx
    have hmem' : ∀ x ∈ t, h < x ∧ x < 2147483648 :=
      fun x hx => ⟨hsorted x hx, (hpos x (by simp [hx])).2⟩
    rcases batchLoop_spec t h h hh.1 le_rfl hh.2 hchain.tail hmem' with ⟨sA, sB, sC, _⟩
    have hA : joinRanges (batch (h :: t)) = h :: t := by
      rw [hb, sA, intRange_single]
      simp
    have hB : ∀ r ∈ batch (h :: t), 1 ≤ r.start ∧ r.start ≤ r.end_ := by
      intro r hr; rw [hb] at hr; exact sB r hr
    have hBse : ∀ r ∈ batch (h :: t), r.start ≤ r.end_ := fun r hr => (hB r hr).2
    have hC : List.Chain' (fun a b => a.end_ + 1 < b.start) (batch (h :: t)) := by
      rw [hb]; exact sC
    have hP : List.Pairwise (fun a b => a.end_ + 1 < b.start) (batch (h :: t)) :=
      gap_pairwise _ hBse hC
    refine ⟨hA, hB, ?_, ?_, ?_, ?_, ?_, hexamples⟩
    · exact hP.imp (fun hab => by omega)
    · refine List.Pairwise.imp_of_mem ?_ hP
      intro a b ha _ hab
      have := (hB a ha).2
      omega
    · intro x
      rw [← mem_joinRanges, hA]
    · intro r hr x hx
      rw [← hA]
      exact mem_joinRanges.2 ⟨r, hr, hx⟩
    · intro x hx hx1
      exact runs_no_split (batch (h :: t)) x hBse hC (by rw [hA]; exact hx) (by rw [hA]; exact hx1)

/-- C3 witness: the theorem applied to the spec's own example input. -/
theorem c3_witness :
    joinRanges (batch [1, 2, 3, 7, 8, 10]) = [1, 2, 3, 7, 8, 10] :=
  (c3_batch_maximal_runs [1, 2, 3, 7, 8, 10]
    (by simp [List.chain'_cons, List.chain'_singleton]) (by decide)).1

/-- Invariant of the batching loop over arbitrary nonnegative int32
inputs: a flushed range containing 0 can only be the sentinel pair
`(0, 0)` itself, emitted by the unconditional final flush, and only when
the remaining input ends while the sentinel state is open (empty
remainder with `start = 0`, or a remainder whose last element is 0). -/
theorem batchLoop_zero_free : ∀ (l : List Int) (s e : Int),
    0 ≤ s → s ≤ e → (s = 0 → e = 0) → e < 2147483648 →
    (∀ x ∈ l, 0 ≤ x ∧ x < 2147483648) →
    ∀ r ∈ batchLoop l s e, memRange 0 r →
      r = ⟨0, 0⟩ ∧ (l.getLast? = some 0 ∨ (l = [] ∧ s = 0)) := by
  intro l
  induction l with
  | nil =>
    intro s e hs hse hzero _ _ r hr hmem
    rw [batchLoop] at hr
    rcases List.mem_singleton.1 hr with rfl
    rcases hmem with ⟨hm1, hm2⟩
    have hs0 : s = 0 := le_antisymm hm1 hs
    have he0 : e = 0 := hzero hs0
    refine ⟨by rw [hs0, he0], Or.inr ⟨rfl, hs0⟩⟩
  | cons seq rest ih =>
    intro s e hs hse hzero he hmem r hr hrmem
    have hseqb := hmem seq (by simp)
    have hrestb : ∀ x ∈ rest, 0 ≤ x ∧ x < 2147483648 :=
      fun x hx => hmem x (by simp [hx])
    by_cases hs0 : s = 0
    · rw [batchLoop, if_pos hs0] at hr
      have hres := ih seq seq hseqb.1 le_rfl (fun h => h) hseqb.2 hrestb r hr hrmem
      refine ⟨hres.1, Or.inl ?_⟩
      rcases hres.2 with hlast | ⟨hrest, hseq0⟩
      · cases rest with
        | nil => simp at hlast
        | cons r1 rest' => rw [List.getLast?_cons_cons]; exact hlast
      · subst hrest
        simp [hseq0]
    · rw [batchLoop, if_neg hs0] at hr
      by_cases hext : seq = wrap32 (e + 1)
      · have hseq : seq = e + 1 := by
          rw [hext, wrap32]
          have h1 : 0 ≤ e + 1 := by omega
          by_cases h2 : e + 1 < 2147483648
          · omega
          · exfalso
            have he1 : e + 1 = 2147483648 := by omega
            have hw : wrap32 (e + 1) = -2147483648 := by rw [wrap32]; omega
            rw [hext, hw] at hseqb
            omega
        rw [if_pos hext] at hr
        have hres := ih s seq hs (by omega) (fun h0 => absurd h0 hs0) (by omega) hrestb r hr hrmem
        refine ⟨hres.1, Or.inl ?_⟩
        rcases hres.2 with hlast | ⟨_, hsz⟩
        · cases rest with
          | nil => simp at hlast
          | cons r1 rest' => rw [List.getLast?_cons_cons]; exact hlast
        · exact absurd hsz hs0
      · rw [if_neg hext] at hr
        rcases List.mem_cons.1 hr with rfl | hr'
        · exfalso
          rcases hrmem with ⟨hm1, _⟩
          exact hs0 (le_antisymm hm1 hs)
        · have hres := ih seq seq hseqb.1 le_rfl (fun h => h) hseqb.2 hrestb r hr' hrmem
          refine ⟨hres.1, Or.inl ?_⟩
          rcases hres.2 with hlast | ⟨hrest, hseq0⟩
          · cases rest with
            | nil => simp at hlast
            | cons r1 rest' => rw [List.getLast?_cons_cons]; exact hlast
          · subst hrest
            simp [hseq0]

/-- C10 counterexample: on the input `[0]` the batching step emits the
range `{0, 0}`, which contains the element 0 — contradicting the claim
that an element equal to 0 is never included in any emitted range: the
final flush after the loop is unconditional. -/
theorem c10_counterexample :
    batch [0] = [⟨0, 0⟩] ∧ memRange 0 ⟨0, 0⟩ ∧ (0 : Int) ∈ [(0 : Int)] := by
  refine ⟨by decide, by decide, by decide⟩

/-- C10 (amended): 0 is the loop's "no run open" sentinel — a 0 read
while no run is open leaves the run unopened, so the next element
re-opens it — and over any input of nonnegative int32 values, 0 appears
in an emitted range only as the pair `{0, 0}` produced by the
unconditional final flush when the input's last element is 0; in
particular the batching behaviour promised for the sweep holds whenever
every input value is at least 1. -/
theorem c10_zero_sentinel (l : List Int)
    (hb : ∀ x ∈ l, 0 ≤ x ∧ x < 2147483648) :
    (∀ e rest, batchLoop ((0 : Int) :: rest) 0 e = batchLoop rest 0 0) ∧
    (∀ r ∈ batch l, memRange 0 r → r = ⟨0, 0⟩ ∧ l.getLast? = some 0) := by
  constructor
  · intro e rest
    rw [batchLoop, if_pos rfl]
  · intro r hr hmem
    by_cases hl : l = []
    · subst hl; rw [batch] at hr; simp at hr
    · rw [batch, if_neg hl] at hr
      have hres := batchLoop_zero_free l 0 0 le_rfl le_rfl (fun _ => rfl) (by omega) hb r hr hmem
      rcases hres.2 with hlast | ⟨hl', _⟩
      · exact ⟨hres.1, hlast⟩
      · exact absurd hl' hl

/-- C10 witness: the amended statement evaluated on the input `[0]`. -/
theorem c10_witness :
    ({ start := 0, end_ := 0 } : LedgerRange) = ⟨0, 0⟩ ∧
      ([(0 : Int)]).getLast? = some 0 :=
  (c10_zero_sentinel [0] (by decide)).2 ⟨0, 0⟩ (by decide) (by decide)
